import Mathlib

/-!
Verification development for the syncro_data_consolidator core:
temporal session aggregation (src/sdc/utils/session_aggregator.py,
src/sdc/utils/session_builder.py) and cascading customer/contact
resolution (src/sdc/processors/session_customer_linker.py).

Timestamps are embedded as integers counting microseconds (the
resolution of Python datetime); durations likewise.  Python dict
values occurring in segment metadata are embedded by the small
inductive type Val.
-/

set_option maxHeartbeats 1000000

namespace SDC

/-! Data model: SessionSegment from src/sdc/models/session_v2.py. -/

/-- A scalar value stored in a segment metadata map. -/
inductive Val
  | vnone
  | vstr (s : String)
  | vint (n : Int)
deriving DecidableEq, Repr

/-- Embedding of the pydantic model SessionSegment (session_v2.py, lines 10-18):
segment_id, start_time_utc, end_time_utc, type, author, content, metadata. -/
structure SessionSegment where
  segment_id : String
  start_time_utc : Int
  end_time_utc : Int
  type : String
  author : Option String
  content : Option String
  metadata : List (String × Val)
deriving DecidableEq, Repr

/-- Result of the dynamic attribute-or-metadata lookup: either a scalar
(or None) value, or the whole metadata dict (for the key "metadata"). -/
inductive GVal
  | prim (v : Val)
  | dict (m : List (String × Val))
deriving DecidableEq, Repr

/-- Python dict .get with default None: first matching entry or vnone. -/
def metaGet (m : List (String × Val)) (key : String) : Val :=
  match m.find? (fun p => p.1 == key) with
  | some p => p.2
  | none => .vnone

/-- Encoding of an optional-string attribute value as a Val. -/
def optStrVal : Option String → Val
  | none => .vnone
  | some s => .vstr s

/-- The declared field names of SessionSegment, i.e. the names for which
hasattr(segment, key) holds in the embedded model. -/
def segmentFieldNames : List String :=
  ["segment_id", "start_time_utc", "end_time_utc", "type", "author", "content", "metadata"]

/-- Embedding of _get_key_value (session_aggregator.py, lines 11-18): a
top-level attribute of the given name is returned when present, otherwise
the metadata dict is consulted with default None. -/
def getKeyValue (segment : SessionSegment) (key : String) : GVal :=
  if key = "segment_id" then .prim (.vstr segment.segment_id)
  else if key = "start_time_utc" then .prim (.vint segment.start_time_utc)
  else if key = "end_time_utc" then .prim (.vint segment.end_time_utc)
  else if key = "type" then .prim (.vstr segment.type)
  else if key = "author" then .prim (optStrVal segment.author)
  else if key = "content" then .prim (optStrVal segment.content)
  else if key = "metadata" then .dict segment.metadata
  else .prim (metaGet segment.metadata key)

/-! Temporal clusterer: group_segments_by_time_gap_and_keys
(session_aggregator.py, lines 21-71). -/

/-- Embedding of the keys_changed check (lines 55-60): with grouping_keys
None the check is skipped; otherwise any key whose two-tier lookup differs
between the two segments triggers a split. -/
def keysChanged (grouping_keys : Option (List String)) (prev curr : SessionSegment) : Bool :=
  match grouping_keys with
  | none => false
  | some keys => keys.any (fun k => getKeyValue curr k != getKeyValue prev k)

/-- Embedding of the split decision for one loop iteration (lines 53-62):
the gap check compares curr.start_time_utc against the end_time_utc of the
immediately preceding segment of the sorted list. -/
def splitHere (time_gap : Int) (grouping_keys : Option (List String))
    (prev curr : SessionSegment) : Bool :=
  decide (time_gap < curr.start_time_utc - prev.end_time_utc)
    || keysChanged grouping_keys prev curr

/-- Ordering of segments by start time, as used by the sort safeguard. -/
def segLE (a b : SessionSegment) : Prop := a.start_time_utc ≤ b.start_time_utc

instance : DecidableRel segLE := fun a b =>
  inferInstanceAs (Decidable (a.start_time_utc ≤ b.start_time_utc))

instance : IsTotal SessionSegment segLE :=
  ⟨fun a b => Int.le_total a.start_time_utc b.start_time_utc⟩

instance : IsTrans SessionSegment segLE := ⟨fun _ _ _ => Int.le_trans⟩

/-- The stable ascending sort by start_time_utc performed at line 44
(Python list.sort with key s.start_time_utc is stable). -/
def sortByStart (segments : List SessionSegment) : List SessionSegment :=
  List.insertionSort segLE segments

/-- Embedding of the main loop (lines 49-69): prev is the predecessor of
the current element in the sorted order, current the open group. -/
def clusterLoop (time_gap : Int) (grouping_keys : Option (List String)) :
    SessionSegment → List SessionSegment → List SessionSegment → List (List SessionSegment)
  | _, current, [] => [current]
  | prev, current, curr :: rest =>
    if splitHere time_gap grouping_keys prev curr then
      current :: clusterLoop time_gap grouping_keys curr [curr] rest
    else
      clusterLoop time_gap grouping_keys curr (current ++ [curr]) rest

/-- Embedding of group_segments_by_time_gap_and_keys (lines 21-71): empty
input short-circuits, otherwise the input is sorted by start time and the
loop walks adjacent pairs. -/
def group_segments_by_time_gap_and_keys (segments : List SessionSegment)
    (time_gap : Int) (grouping_keys : Option (List String)) : List (List SessionSegment) :=
  match sortByStart segments with
  | [] => []
  | s :: rest => clusterLoop time_gap grouping_keys s [s] rest

/-- The contents of the list object passed by the caller once the call
returns: line 44 sorts the caller-supplied list in place (after the early
return for the empty list at lines 40-41). -/
def segmentsAfterCall (segments : List SessionSegment) : List SessionSegment :=
  if segments.isEmpty then segments else sortByStart segments

/-- Running maximum of end_time_utc over a non-empty group prefix, the
quantity the specification calls the effective end time. -/
def runningMaxEnd : List SessionSegment → Int
  | [] => 0
  | s :: rest => rest.foldl (fun m t => max m t.end_time_utc) s.end_time_utc

/-- Holds when curr does not trigger a split right after prev: the gap
from the end of prev to the start of curr is within time_gap and no
grouping key drifts. -/
def contR (time_gap : Int) (gk : Option (List String)) (a b : SessionSegment) : Prop :=
  splitHere time_gap gk a b = false

/-- Holds between two adjacent output groups: the last segment of the
first and the first segment of the second trigger the split condition. -/
def boundarySplit (time_gap : Int) (gk : Option (List String))
    (g h : List SessionSegment) : Prop :=
  ∀ a ∈ g.getLast?, ∀ b ∈ h.head?, splitHere time_gap gk a b = true

/-- Structural characterisation of the clusterer loop: every produced
group is non-empty and free of internal split points, adjacent groups are
separated by a split point, the groups concatenate back to the processed
list, and the first group starts with the first pending segment. -/
theorem clusterLoop_spec (time_gap : Int) (gk : Option (List String))
    (rest : List SessionSegment) :
    ∀ (prev : SessionSegment) (cur : List SessionSegment),
      cur ≠ [] → cur.getLast? = some prev → List.Chain' (contR time_gap gk) cur →
      (∀ g ∈ clusterLoop time_gap gk prev cur rest,
          g ≠ [] ∧ List.Chain' (contR time_gap gk) g)
      ∧ List.Chain' (boundarySplit time_gap gk) (clusterLoop time_gap gk prev cur rest)
      ∧ (clusterLoop time_gap gk prev cur rest).flatten = cur ++ rest
      ∧ (clusterLoop time_gap gk prev cur rest).head?.map List.head? = some cur.head? := by
  induction rest with
  | nil =>
    intro prev cur hne hlast hchain
    refine ⟨?_, ?_, ?_, ?_⟩
    · intro g hg
      simp only [clusterLoop, List.mem_singleton] at hg
      exact hg ▸ ⟨hne, hchain⟩
    · exact List.chain'_singleton cur
    · simp [clusterLoop]
    · simp [clusterLoop]
  | cons c rs ih =>
    intro prev cur hne hlast hchain
    by_cases hsplit : splitHere time_gap gk prev c
    · have ihc := ih c [c] (by simp) (by simp) (List.chain'_singleton c)
      have hout : clusterLoop time_gap gk prev cur (c :: rs)
          = cur :: clusterLoop time_gap gk c [c] rs := by
        simp [clusterLoop, hsplit]
      rw [hout]
      obtain ⟨ihg, ihb, ihj, ihh⟩ := ihc
      refine ⟨?_, ?_, ?_, ?_⟩
      · intro g hg
        rcases List.mem_cons.mp hg with rfl | hg
        · exact ⟨hne, hchain⟩
        · exact ihg g hg
      · refine List.chain'_cons'.mpr ⟨?_, ihb⟩
        intro y hy a ha b hb
        have hyh : y.head? = some c := by
          cases hcl : (clusterLoop time_gap gk c [c] rs).head? with
          | none => rw [hcl] at ihh; simp at ihh
          | some g0 =>
            rw [hcl] at ihh
            simp at ihh hy
            rw [hcl] at hy
            simp at hy
            subst hy
            simpa using ihh
        rw [hlast] at ha
        rw [hyh] at hb
        simp at ha hb
        subst ha; subst hb
        exact hsplit
      · simp only [List.flatten_cons]
        rw [ihj]
        simp
      · simp
    · have hsplit' : splitHere time_gap gk prev c = false := by
        simpa using hsplit
      have hlast' : (cur ++ [c]).getLast? = some c := List.getLast?_concat cur
      have hchain' : List.Chain' (contR time_gap gk) (cur ++ [c]) := by
        refine List.chain'_append.mpr ⟨hchain, List.chain'_singleton c, ?_⟩
        intro x hx y hy
        rw [hlast] at hx
        simp at hx hy
        subst hx; subst hy
        exact hsplit'
      have ihc := ih c (cur ++ [c]) (by simp) hlast' hchain'
      have hout : clusterLoop time_gap gk prev cur (c :: rs)
          = clusterLoop time_gap gk c (cur ++ [c]) rs := by
        simp [clusterLoop, hsplit]
      rw [hout]
      obtain ⟨ihg, ihb, ihj, ihh⟩ := ihc
      refine ⟨ihg, ihb, ?_, ?_⟩
      · rw [ihj]; simp
      · rw [ihh]
        cases cur with
        | nil => exact absurd rfl hne
        | cons hd tl => simp

/-- Any element of a list bounds runningMaxEnd from below by its end time. -/
theorem end_le_runningMaxEnd :
    ∀ (l : List SessionSegment) (a : SessionSegment), a ∈ l →
      a.end_time_utc ≤ runningMaxEnd l := by
  have hinit : ∀ (l : List SessionSegment) (acc : Int),
      acc ≤ l.foldl (fun m t => max m t.end_time_utc) acc := by
    intro l
    induction l with
    | nil => intro acc; simp
    | cons t ts ihts =>
      intro acc
      calc acc ≤ max acc t.end_time_utc := le_max_left _ _
        _ ≤ ts.foldl (fun m t => max m t.end_time_utc) (max acc t.end_time_utc) := ihts _
  have hmem : ∀ (l : List SessionSegment) (acc : Int) (a : SessionSegment), a ∈ l →
      a.end_time_utc ≤ l.foldl (fun m t => max m t.end_time_utc) acc := by
    intro l
    induction l with
    | nil => intro acc a ha; simp at ha
    | cons t ts ihts =>
      intro acc a ha
      rcases List.mem_cons.mp ha with rfl | ha
      · calc a.end_time_utc ≤ max acc a.end_time_utc := le_max_right _ _
          _ ≤ ts.foldl (fun m t => max m t.end_time_utc) (max acc a.end_time_utc) := hinit _ _
      · exact ihts _ a ha
  intro l a ha
  cases l with
  | nil => simp at ha
  | cons s rest =>
    rcases List.mem_cons.mp ha with rfl | ha
    · exact hinit rest a.end_time_utc
    · exact hmem rest s.end_time_utc a ha

/-- Inside a group without internal split points, every segment start is
within time_gap of the running maximum of the earlier end times. -/
theorem chain_to_runningMax (time_gap : Int) (gk : Option (List String))
    (g : List SessionSegment) (hg : List.Chain' (contR time_gap gk) g)
    (i : Nat) (h : i + 1 < g.length) :
    (g.get ⟨i + 1, h⟩).start_time_utc - runningMaxEnd (g.take (i + 1)) ≤ time_gap := by
  have hadj : contR time_gap gk (g.get ⟨i, by omega⟩) (g.get ⟨i + 1, h⟩) :=
    List.chain'_iff_get.mp hg i (by omega)
  have hgap : (g.get ⟨i + 1, h⟩).start_time_utc - (g.get ⟨i, by omega⟩).end_time_utc ≤ time_gap := by
    have := hadj
    simp only [contR, splitHere, Bool.or_eq_false_iff, decide_eq_false_iff_not, not_lt] at this
    exact this.1
  have hmemtake : g.get ⟨i, by omega⟩ ∈ g.take (i + 1) := by
    have hs : i < (g.take (i + 1)).length := by
      simp only [List.length_take]
      omega
    have hh : (g.take (i + 1)).get ⟨i, hs⟩ = g.get ⟨i, by omega⟩ := by
      simp [List.getElem_take]
    rw [← hh]
    exact List.get_mem _ _ _
  have hle := end_le_runningMaxEnd (g.take (i + 1)) _ hmemtake
  omega

/-- C1 (amended): the split decision is made against the end time of the
immediately preceding segment in sorted order, not the running maximum:
within every returned group no adjacent pair satisfies the split condition
(hence each segment start minus the running maximum of earlier end times
in its group is at most max_gap), at every boundary between adjacent
groups the split condition holds, and the groups concatenate to the
sorted input. -/
theorem claim1_gap_check_amended (segments : List SessionSegment) (time_gap : Int)
    (gk : Option (List String)) :
    (∀ g ∈ group_segments_by_time_gap_and_keys segments time_gap gk,
        List.Chain' (contR time_gap gk) g ∧
        ∀ (i : Nat) (h : i + 1 < g.length),
          (g.get ⟨i + 1, h⟩).start_time_utc - runningMaxEnd (g.take (i + 1)) ≤ time_gap)
    ∧ List.Chain' (boundarySplit time_gap gk)
        (group_segments_by_time_gap_and_keys segments time_gap gk)
    ∧ (group_segments_by_time_gap_and_keys segments time_gap gk).flatten
        = sortByStart segments := by
  unfold group_segments_by_time_gap_and_keys
  cases hs : sortByStart segments with
  | nil => simp
  | cons s rest =>
    obtain ⟨hg, hb, hj, _⟩ :=
      clusterLoop_spec time_gap gk rest s [s] (by simp) (by simp) (List.chain'_singleton s)
    refine ⟨?_, hb, by simpa using hj⟩
    intro g hgm
    have hgp := hg g hgm
    exact ⟨hgp.2, fun i hi => chain_to_runningMax time_gap gk g hgp.2 i hi⟩

/-- Segments for the C1 counterexample: cex1A overlaps far past cex1B and
cex1C, so the running maximum end differs from the previous-segment end. -/
def cex1A : SessionSegment := ⟨"a1", 0, 100, "x", none, none, []⟩

/-- Second C1 counterexample segment. -/
def cex1B : SessionSegment := ⟨"b1", 5, 6, "x", none, none, []⟩

/-- Third C1 counterexample segment. -/
def cex1C : SessionSegment := ⟨"c1", 20, 21, "x", none, none, []⟩

/-- C1 counterexample: with max_gap 10 the code starts a new group at
cex1C although cex1C.start_time minus the running maximum end time of the
open group (100, from cex1A) is well below max_gap; the split fired on
the immediately preceding end time 6 of cex1B.  This refutes the claim
that a new group starts exactly when the running-maximum gap is
exceeded. -/
theorem claim1_counterexample :
    group_segments_by_time_gap_and_keys [cex1A, cex1B, cex1C] 10 none
        = [[cex1A, cex1B], [cex1C]]
    ∧ cex1C.start_time_utc - runningMaxEnd [cex1A, cex1B] ≤ 10 := by
  constructor
  · decide
  · decide

/-- C1 witness: the amended theorem applied to the counterexample input,
evaluated on the first returned group. -/
theorem claim1_gap_check_witness :
    List.Chain' (contR 10 none) [cex1A, cex1B]
    ∧ cex1B.start_time_utc - runningMaxEnd [cex1A] ≤ 10 := by
  have h := (claim1_gap_check_amended [cex1A, cex1B, cex1C] 10 none).1
      [cex1A, cex1B] (by decide)
  exact ⟨h.1, by have := h.2 0 (by decide); simpa using this⟩

/-- Two distinct segments sharing a start time, for the C5 and C8
counterexamples. -/
def cex5A : SessionSegment := ⟨"a5", 0, 0, "x", none, none, []⟩

/-- Second segment sharing the start time of cex5A. -/
def cex5B : SessionSegment := ⟨"b5", 0, 0, "x", none, none, []⟩

/-- C5 counterexample: the two orders of the same two-element multiset
with a tied start time produce different groupings, because the internal
sort is stable and keeps ties in input order. -/
theorem claim5_counterexample :
    ([cex5A, cex5B].Perm [cex5B, cex5A])
    ∧ group_segments_by_time_gap_and_keys [cex5A, cex5B] 0 none
        ≠ group_segments_by_time_gap_and_keys [cex5B, cex5A] 0 none := by
  constructor
  · decide
  · decide

/-- Sorted lists that are permutations of one another and have pairwise
distinct start times are equal. -/
theorem sorted_eq_of_perm_of_nodup_starts :
    ∀ (l₁ l₂ : List SessionSegment), l₁.Perm l₂ →
      List.Sorted segLE l₁ → List.Sorted segLE l₂ →
      (l₁.map (fun s => s.start_time_utc)).Nodup → l₁ = l₂ := by
  intro l₁
  induction l₁ with
  | nil =>
    intro l₂ hp _ _ _
    exact hp.nil_eq
  | cons a t ih =>
    intro l₂ hp hs₁ hs₂ hnd
    cases l₂ with
    | nil => exact absurd hp.symm (by simp)
    | cons b t₂ =>
      rw [List.map_cons] at hnd
      have hnd' := List.nodup_cons.mp hnd
      have hab : a = b := by
        have ha : a ∈ b :: t₂ := hp.subset (List.mem_cons_self a t)
        have hb : b ∈ a :: t := hp.symm.subset (List.mem_cons_self b t₂)
        rcases List.mem_cons.mp ha with h1 | h1
        · exact h1
        rcases List.mem_cons.mp hb with h2 | h2
        · exact h2.symm
        exfalso
        have hba : segLE b a := List.rel_of_sorted_cons hs₂ a h1
        have hab' : segLE a b := List.rel_of_sorted_cons hs₁ b h2
        have heq : a.start_time_utc = b.start_time_utc := le_antisymm hab' hba
        apply hnd'.1
        rw [heq]
        exact List.mem_map_of_mem (fun s => s.start_time_utc) h2
      subst hab
      have htail := ih t₂ hp.cons_inv (List.sorted_cons.mp hs₁).2
        (List.sorted_cons.mp hs₂).2 hnd'.2
      rw [htail]

/-- C5 (amended): for any two permutations of a segment multiset whose
start times are pairwise distinct, the clusterer produces identical
groupings with the same grouping parameters; with tied start times the
stable sort keeps input order and the groupings can differ. -/
theorem claim5_determinism_amended (l₁ l₂ : List SessionSegment) (time_gap : Int)
    (gk : Option (List String)) (hperm : l₁.Perm l₂)
    (hnd : (l₁.map (fun s => s.start_time_utc)).Nodup) :
    group_segments_by_time_gap_and_keys l₁ time_gap gk
      = group_segments_by_time_gap_and_keys l₂ time_gap gk := by
  have hsort : sortByStart l₁ = sortByStart l₂ := by
    apply sorted_eq_of_perm_of_nodup_starts
    · exact (List.perm_insertionSort segLE l₁).trans
        (hperm.trans (List.perm_insertionSort segLE l₂).symm)
    · exact List.sorted_insertionSort segLE l₁
    · exact List.sorted_insertionSort segLE l₂
    · exact (((List.perm_insertionSort segLE l₁).map
        (fun s => s.start_time_utc)).nodup_iff).mpr hnd
  simp only [group_segments_by_time_gap_and_keys, hsort]

/-- C5 witness: the amended determinism theorem applied to two concrete
permutations with distinct start times. -/
theorem claim5_determinism_witness :
    group_segments_by_time_gap_and_keys [cex1A, cex1C] 10 none
      = group_segments_by_time_gap_and_keys [cex1C, cex1A] 10 none :=
  claim5_determinism_amended [cex1A, cex1C] [cex1C, cex1A] 10 none
    (by decide) (by decide)

/-- C8 counterexample: for an input that is not already sorted by start
time, the list held by the caller after the call differs from the list it
passed in, because the sort at line 44 mutates the list in place. -/
theorem claim8_counterexample :
    segmentsAfterCall [cex1C, cex1A] ≠ [cex1C, cex1A] := by decide

/-- C8 (amended): the function sorts the caller-supplied list in place:
after the call the caller holds a stable ascending sort by start time of
the same elements — a permutation of the original — and the sequence is
unchanged exactly when the input was already sorted by start time. -/
theorem claim8_in_place_sort_amended (segments : List SessionSegment) :
    (segmentsAfterCall segments).Perm segments
    ∧ (segmentsAfterCall segments = segments ↔ List.Sorted segLE segments) := by
  unfold segmentsAfterCall
  by_cases h : segments.isEmpty
  · have : segments = [] := List.isEmpty_iff.mp h
    subst this
    simp
  · simp only [h, if_false, Bool.false_eq_true]
    refine ⟨List.perm_insertionSort segLE segments, ?_, ?_⟩
    · intro he
      rw [← he]
      exact List.sorted_insertionSort segLE segments
    · intro hs
      exact hs.insertionSort_eq

/-- C8 witness: an already sorted input is returned unchanged and the
result is a permutation of the input. -/
theorem claim8_in_place_sort_witness :
    (segmentsAfterCall [cex1A, cex1C]).Perm [cex1A, cex1C]
    ∧ segmentsAfterCall [cex1A, cex1C] = [cex1A, cex1C] := by
  have h := claim8_in_place_sort_amended [cex1A, cex1C]
  exact ⟨h.1, h.2.mpr (by decide)⟩

/-- C10 (confirmed): the two-tier lookup gives declared attributes
precedence over metadata: for any attribute key other than the metadata
field itself the result is independent of the metadata map, the metadata
field returns the map itself, an author of None yields the None value
even when a metadata entry of the same name exists, and only keys that
are not attributes fall back to the metadata map. -/
theorem claim10_attr_precedence :
    (∀ (seg : SessionSegment) (key : String) (m₁ m₂ : List (String × Val)),
        key ∈ segmentFieldNames → key ≠ "metadata" →
        getKeyValue { seg with metadata := m₁ } key
          = getKeyValue { seg with metadata := m₂ } key)
    ∧ (∀ seg : SessionSegment, getKeyValue seg "metadata" = .dict seg.metadata)
    ∧ (∀ seg : SessionSegment, seg.author = none →
        getKeyValue seg "author" = .prim .vnone)
    ∧ (∀ (seg : SessionSegment) (key : String), key ∉ segmentFieldNames →
        getKeyValue seg key = .prim (metaGet seg.metadata key)) := by
  refine ⟨?_, ?_, ?_, ?_⟩
  · intro seg key m₁ m₂ hmem hne
    simp only [segmentFieldNames, List.mem_cons, List.not_mem_nil, or_false] at hmem
    rcases hmem with rfl | rfl | rfl | rfl | rfl | rfl | rfl
    · rfl
    · rfl
    · rfl
    · rfl
    · rfl
    · rfl
    · exact absurd rfl hne
  · intro seg
    rfl
  · intro seg ha
    simp [getKeyValue, ha, optStrVal]
  · intro seg key hmem
    simp only [segmentFieldNames, List.mem_cons, List.not_mem_nil, or_false, not_or] at hmem
    obtain ⟨h1, h2, h3, h4, h5, h6, h7⟩ := hmem
    simp [getKeyValue, h1, h2, h3, h4, h5, h6, h7]

/-- Segment for the C10 witness: author is None while the metadata map
carries an entry under the same key. -/
def cex10 : SessionSegment :=
  ⟨"w10", 0, 1, "x", none, none, [("author", .vstr "ghost"), ("extra", .vint 7)]⟩

/-- C10 witness: on a concrete segment whose metadata shadows the author
attribute, the attribute value None wins, and a key that is not an
attribute falls back to the metadata map. -/
theorem claim10_attr_precedence_witness :
    getKeyValue { cex10 with metadata := [] } "author"
      = getKeyValue { cex10 with metadata := [("author", .vstr "ghost")] } "author"
    ∧ getKeyValue cex10 "author" = .prim .vnone
    ∧ getKeyValue cex10 "extra" = .prim (metaGet cex10.metadata "extra") := by
  refine ⟨?_, ?_, ?_⟩
  · exact claim10_attr_precedence.1 cex10 "author" [] [("author", .vstr "ghost")]
      (by decide) (by decide)
  · exact claim10_attr_precedence.2.2.1 cex10 rfl
  · exact claim10_attr_precedence.2.2.2 cex10 "extra" (by decide)

/-! Session builder: build_session and create_session_insights
(session_builder.py, lines 45-90). -/

/-- The time fields of the SessionInsights object produced by the
builder; remaining SessionInsights fields are constants or passthrough
arguments with no derived content. -/
structure InsightsTimes where
  session_start_time_utc : Int
  session_end_time_utc : Int
  session_duration_minutes : Int
deriving DecidableEq, Repr

/-- Embedding of create_session_insights (session_builder.py, lines
45-60): the duration starts at 0 and is replaced by the truncated minute
count only when end is strictly after start.  Instants are microsecond
counts, so total_seconds dividing by 60 becomes dividing by 60000000 with
truncation toward zero. -/
def create_session_insights (session_start_time_utc session_end_time_utc : Int) :
    InsightsTimes :=
  let duration_minutes : Int :=
    if session_start_time_utc < session_end_time_utc then
      (session_end_time_utc - session_start_time_utc).tdiv 60000000
    else 0
  ⟨session_start_time_utc, session_end_time_utc, duration_minutes⟩

/-- Embedding of build_session (session_builder.py, lines 62-90): raises
on an empty segment list (None here), otherwise takes the minimum start
and maximum end over the segments and derives the insights times. -/
def build_session (segments : List SessionSegment) : Option InsightsTimes :=
  match segments with
  | [] => none
  | s :: rest =>
    let start_time := rest.foldl (fun m t => min m t.start_time_utc) s.start_time_utc
    let end_time := rest.foldl (fun m t => max m t.end_time_utc) s.end_time_utc
    some (create_session_insights start_time end_time)

/-- Any element of a list bounds the foldl minimum of start times. -/
theorem foldl_min_le_mem :
    ∀ (l : List SessionSegment) (acc : Int),
      (l.foldl (fun m t => min m t.start_time_utc) acc ≤ acc)
      ∧ ∀ a ∈ l, l.foldl (fun m t => min m t.start_time_utc) acc ≤ a.start_time_utc := by
  intro l
  induction l with
  | nil => intro acc; simp
  | cons t ts ih =>
    intro acc
    refine ⟨?_, ?_⟩
    · calc ts.foldl (fun m t => min m t.start_time_utc) (min acc t.start_time_utc)
          ≤ min acc t.start_time_utc := (ih _).1
        _ ≤ acc := min_le_left _ _
    · intro a ha
      rcases List.mem_cons.mp ha with rfl | ha
      · calc ts.foldl (fun m t => min m t.start_time_utc) (min acc a.start_time_utc)
            ≤ min acc a.start_time_utc := (ih _).1
          _ ≤ a.start_time_utc := min_le_right _ _
      · exact (ih _).2 a ha

/-- The foldl minimum of start times is attained: it equals the
accumulator or the start time of some list element. -/
theorem foldl_min_attained :
    ∀ (l : List SessionSegment) (acc : Int),
      l.foldl (fun m t => min m t.start_time_utc) acc = acc
      ∨ ∃ a ∈ l, l.foldl (fun m t => min m t.start_time_utc) acc = a.start_time_utc := by
  intro l
  induction l with
  | nil => intro acc; simp
  | cons t ts ih =>
    intro acc
    rcases ih (min acc t.start_time_utc) with h | ⟨a, ha, h⟩
    · rcases min_cases acc t.start_time_utc with ⟨hm, _⟩ | ⟨hm, _⟩
      · left
        simpa [hm] using h
      · right
        exact ⟨t, List.mem_cons_self t ts, by simpa [hm] using h⟩
    · right
      exact ⟨a, List.mem_cons_of_mem t ha, h⟩

/-- Foldl maximum analogue of foldl_min_attained for end times. -/
theorem foldl_max_attained :
    ∀ (l : List SessionSegment) (acc : Int),
      l.foldl (fun m t => max m t.end_time_utc) acc = acc
      ∨ ∃ a ∈ l, l.foldl (fun m t => max m t.end_time_utc) acc = a.end_time_utc := by
  intro l
  induction l with
  | nil => intro acc; simp
  | cons t ts ih =>
    intro acc
    rcases ih (max acc t.end_time_utc) with h | ⟨a, ha, h⟩
    · rcases max_cases acc t.end_time_utc with ⟨hm, _⟩ | ⟨hm, _⟩
      · left
        simpa [hm] using h
      · right
        exact ⟨t, List.mem_cons_self t ts, by simpa [hm] using h⟩
    · right
      exact ⟨a, List.mem_cons_of_mem t ha, h⟩

/-- C9 (confirmed): for every built Session the duration equals the floor
of the elapsed time over one minute clamped to at least 0, where the
start is the minimum start time and the end the maximum end time over the
segments; in particular the duration is 0 whenever end is at most
start. -/
theorem claim9_duration (segments : List SessionSegment) (out : InsightsTimes)
    (h : build_session segments = some out) :
    out.session_duration_minutes
      = max 0 ((out.session_end_time_utc - out.session_start_time_utc).fdiv 60000000)
    ∧ (∀ s ∈ segments, out.session_start_time_utc ≤ s.start_time_utc
        ∧ s.end_time_utc ≤ out.session_end_time_utc)
    ∧ (∃ s ∈ segments, s.start_time_utc = out.session_start_time_utc)
    ∧ (∃ s ∈ segments, s.end_time_utc = out.session_end_time_utc)
    ∧ (out.session_end_time_utc ≤ out.session_start_time_utc →
        out.session_duration_minutes = 0) := by
  match segments, h with
  | s :: rest, h =>
    simp only [build_session, Option.some_inj] at h
    subst h
    simp only [create_session_insights]
    set st := rest.foldl (fun m t => min m t.start_time_utc) s.start_time_utc with hst
    set en := rest.foldl (fun m t => max m t.end_time_utc) s.end_time_utc with hen
    have hformula :
        (if st < en then (en - st).tdiv 60000000 else 0)
          = max 0 ((en - st).fdiv 60000000) := by
      by_cases hlt : st < en
      · have hpos : (0 : Int) ≤ en - st := by omega
        rw [if_pos hlt, Int.tdiv_eq_ediv hpos (by norm_num),
          Int.fdiv_eq_ediv _ (by norm_num)]
        have hnn : (0 : Int) ≤ (en - st) / 60000000 := Int.ediv_nonneg hpos (by norm_num)
        omega
      · have hnp : en - st ≤ 0 := by omega
        rw [if_neg hlt, Int.fdiv_eq_ediv _ (by norm_num)]
        have hle : (en - st) / 60000000 ≤ 0 := by omega
        omega
    refine ⟨hformula, ?_, ?_, ?_, ?_⟩
    · intro a ha
      constructor
      · rcases List.mem_cons.mp ha with rfl | ha
        · exact (foldl_min_le_mem rest a.start_time_utc).1
        · exact (foldl_min_le_mem rest s.start_time_utc).2 a ha
      · have := end_le_runningMaxEnd (s :: rest) a ha
        simpa [runningMaxEnd] using this
    · rcases foldl_min_attained rest s.start_time_utc with hm | ⟨a, ha, hm⟩
      · exact ⟨s, List.mem_cons_self s rest, hm.symm⟩
      · exact ⟨a, List.mem_cons_of_mem s ha, hm.symm⟩
    · rcases foldl_max_attained rest s.end_time_utc with hm | ⟨a, ha, hm⟩
      · exact ⟨s, List.mem_cons_self s rest, hm.symm⟩
      · exact ⟨a, List.mem_cons_of_mem s ha, hm.symm⟩
    · intro hle
      have hle' : en ≤ st := hle
      rw [if_neg (by omega)]

/-- C9 witness: a concrete two-segment build with overlapping segments
spanning 125 seconds at microsecond scale yields duration 2 minutes,
obtained by applying the claim theorem at that input. -/
theorem claim9_duration_witness :
    (2 : Int) = max 0 (((125000000 : Int) - 0).fdiv 60000000) :=
  (claim9_duration
    [⟨"s1", 0, 125000000, "x", none, none, []⟩,
     ⟨"s2", 5000000, 60000000, "x", none, none, []⟩]
    ⟨0, 125000000, 2⟩ (by decide)).1

/-! Cascading resolver: session_customer_linker.py.  The thefuzz scorer
(token_set_ratio composed with the extract preprocessing) is an external
library and is embedded as an opaque parameter mapping a query and a
choice to an integer score. -/

/-- Embedding of Python str.lower as a character map over the string
data. -/
def pyLower (s : String) : String := String.mk (s.data.map Char.toLower)

/-- Whitespace test for the strip embedding. -/
def isSpaceChar (c : Char) : Bool := c == ' ' || c == '\t' || c == '\n' || c == '\r'

/-- Embedding of Python str.strip: drop whitespace from both ends. -/
def pyStrip (s : String) : String :=
  String.mk (((s.data.dropWhile isSpaceChar).reverse.dropWhile isSpaceChar).reverse)

/-- A contact entry of a roster customer, keys id and name; an empty name
stands for a missing or empty value, which Python treats as falsy. -/
structure Contact where
  id : Option Int
  name : String
deriving DecidableEq, Repr

/-- A lean-cache customer entry, keys id, business_name and contacts; an
empty business_name stands for a missing or empty value. -/
structure Customer where
  id : Option Int
  business_name : String
  contacts : List Contact
deriving DecidableEq, Repr

/-- The LLM capability: maps the guessed name and the candidate names of
the prompt to the response content string. -/
structure LLMClient where
  respond : String → List String → String

/-- Which pass produced a winner, mirroring the linked_by counters of the
linker; noneM covers every no-winner outcome. -/
inductive LinkMethod
  | exactM
  | fuzzyM
  | llmM
  | noneM
deriving DecidableEq, Repr

/-- Keys of a Python dict comprehension in first-insertion order. -/
def pyDictKeys (names : List String) : List String :=
  names.foldl (fun acc n => if acc.contains n then acc else acc ++ [n]) []

/-- Value a Python dict comprehension stores under a key: the last entry
with that key wins. -/
def pyDictGet {α : Type} (nameOf : α → String) (items : List α) (key : String) : Option α :=
  items.reverse.find? (fun c => nameOf c == key)

/-- Ordering used by process.extract results: descending by score, ties
keeping the order of the choices, as sorted with reverse=True does. -/
def scoreGE (a b : String × Int) : Prop := b.2 ≤ a.2

instance : DecidableRel scoreGE := fun a b => inferInstanceAs (Decidable (b.2 ≤ a.2))

instance : IsTotal (String × Int) scoreGE := ⟨fun a b => Int.le_total b.2 a.2⟩

instance : IsTrans (String × Int) scoreGE := ⟨fun _ _ _ hab hbc => le_trans hbc hab⟩

/-- Embedding of thefuzz process.extract over a list of choice keys:
score every choice, sort stably by descending score, truncate to the
limit. -/
def processExtract (scorer : String → String → Int) (query : String)
    (choices : List String) (limit : Nat) : List (String × Int) :=
  (List.insertionSort scoreGE (choices.map (fun n => (n, scorer query n)))).take limit

/-- Embedding of _find_winner_from_llm_response (linker lines 20-38): the
first candidate whose key value, stripped and lowercased, equals the
stripped lowercased response; no candidate matching means no winner. -/
def find_winner_from_llm_response {α : Type} (nameOf : α → String)
    (llm_response : String) (candidates : List α) : Option α :=
  candidates.find? (fun c => pyLower (pyStrip (nameOf c)) == pyLower (pyStrip llm_response))

/-- The choices dict of customer linking (line 130): customers with a
truthy business_name. -/
def customerItems (customer_cache : List Customer) : List Customer :=
  customer_cache.filter (fun c => c.business_name != "")

/-- The viable fuzzy matches of customer linking (lines 131-132): top 5
extract results with score at least 60, in descending score order. -/
def customerViable (scorer : String → String → Int) (guessed_name : String)
    (customer_cache : List Customer) : List (String × Int) :=
  (processExtract scorer guessed_name
      (pyDictKeys ((customerItems customer_cache).map (fun c => c.business_name))) 5).filter
    (fun m => 60 ≤ m.2)

/-- The candidate customers handed to the LLM (line 148): the viable
match names looked up in the choices dict. -/
def customerCandidates (scorer : String → String → Int) (guessed_name : String)
    (customer_cache : List Customer) : List Customer :=
  (customerViable scorer guessed_name customer_cache).filterMap
    (fun m => pyDictGet (fun c => c.business_name) (customerItems customer_cache) m.1)

/-- Embedding of the LLM disambiguation block of customer linking (lines
149-158): with no client the winner stays None, otherwise the response is
matched back against the candidate list. -/
def customerLLMBlock (llm : Option LLMClient) (guessed_name : String)
    (candidate_customers : List Customer) : Option Customer × LinkMethod :=
  match llm with
  | none => (none, .noneM)
  | some client =>
    match find_winner_from_llm_response (fun c => c.business_name)
        (client.respond guessed_name (candidate_customers.map (fun c => c.business_name)))
        candidate_customers with
    | some w => (some w, .llmM)
    | none => (none, .noneM)

/-- Embedding of the fuzzy pass with LLM fallback of customer linking
(lines 129-158). -/
def customerFuzzyBlock (scorer : String → String → Int) (llm : Option LLMClient)
    (fuzzy_threshold : Int) (guessed_name : String) (customer_cache : List Customer) :
    Option Customer × LinkMethod :=
  match customerViable scorer guessed_name customer_cache with
  | [] => (none, .noneM)
  | (best_name, best_score) :: restv =>
    match restv with
    | [] =>
      if fuzzy_threshold ≤ best_score then
        (pyDictGet (fun c => c.business_name) (customerItems customer_cache) best_name, .fuzzyM)
      else
        customerLLMBlock llm guessed_name (customerCandidates scorer guessed_name customer_cache)
    | (_, second_score) :: _ =>
      if fuzzy_threshold ≤ best_score ∧ 10 < best_score - second_score then
        (pyDictGet (fun c => c.business_name) (customerItems customer_cache) best_name, .fuzzyM)
      else
        customerLLMBlock llm guessed_name (customerCandidates scorer guessed_name customer_cache)

/-- Embedding of customer resolution for one new guessed name (lines
121-158): the exact pass decides alone only when exactly one case
insensitive match exists, otherwise the fuzzy and LLM passes decide. -/
def resolveCustomer (scorer : String → String → Int) (llm : Option LLMClient)
    (fuzzy_threshold : Int) (guessed_name : String) (customer_cache : List Customer) :
    Option Customer × LinkMethod :=
  let exact_matches :=
    customer_cache.filter (fun c => pyLower c.business_name == pyLower guessed_name)
  if exact_matches.length = 1 then
    (exact_matches.head?, .exactM)
  else
    customerFuzzyBlock scorer llm fuzzy_threshold guessed_name customer_cache

/-- The contact choices dict (line 187): contacts with a truthy name. -/
def contactItems (known_contacts : List Contact) : List Contact :=
  known_contacts.filter (fun c => c.name != "")

/-- The viable fuzzy contact matches (lines 188-189): top 3 extract
results with score at least 60, in descending score order. -/
def contactViable (scorer : String → String → Int) (guessed_contact : String)
    (known_contacts : List Contact) : List (String × Int) :=
  (processExtract scorer guessed_contact
      (pyDictKeys ((contactItems known_contacts).map (fun c => c.name))) 3).filter
    (fun m => 60 ≤ m.2)

/-- The candidate contacts handed to the LLM (line 201). -/
def contactCandidates (scorer : String → String → Int) (guessed_contact : String)
    (known_contacts : List Contact) : List Contact :=
  (contactViable scorer guessed_contact known_contacts).filterMap
    (fun m => pyDictGet (fun c => c.name) (contactItems known_contacts) m.1)

/-- Embedding of the LLM disambiguation block of contact linking (lines
202-209). -/
def contactLLMBlock (llm : Option LLMClient) (guessed_contact : String)
    (candidate_contact_dicts : List Contact) : Option Contact :=
  match llm with
  | none => none
  | some client =>
    find_winner_from_llm_response (fun c => c.name)
      (client.respond guessed_contact (candidate_contact_dicts.map (fun c => c.name)))
      candidate_contact_dicts

/-- Embedding of contact resolution (lines 186-212): there is no exact
pass, the extract limit is 3, the remaining thresholds mirror the
customer side, scoped to the contacts of the already resolved
customer. -/
def resolveContact (scorer : String → String → Int) (llm : Option LLMClient)
    (fuzzy_threshold : Int) (guessed_contact : String) (known_contacts : List Contact) :
    Option Contact :=
  match contactViable scorer guessed_contact known_contacts with
  | [] => none
  | (best_name, best_score) :: restv =>
    match restv with
    | [] =>
      if fuzzy_threshold ≤ best_score then
        pyDictGet (fun c => c.name) (contactItems known_contacts) best_name
      else
        contactLLMBlock llm guessed_contact (contactCandidates scorer guessed_contact known_contacts)
    | (_, second_score) :: _ =>
      if fuzzy_threshold ≤ best_score ∧ 10 < best_score - second_score then
        pyDictGet (fun c => c.name) (contactItems known_contacts) best_name
      else
        contactLLMBlock llm guessed_contact (contactCandidates scorer guessed_contact known_contacts)

/-- Modelled from the spec, section 4.4: the Match Cascade over an
arbitrary candidate type with a display name, parameterized by whether
the exact pass is present and by the fuzzy truncation limit.  The two
source resolvers are compared against instances of this definition. -/
def genericCascade {α : Type} (nameOf : α → String) (use_exact : Bool) (limit : Nat)
    (scorer : String → String → Int) (llm : Option LLMClient) (fuzzy_threshold : Int)
    (guessed : String) (pool : List α) : Option α :=
  let exact_matches := pool.filter (fun c => pyLower (nameOf c) == pyLower guessed)
  if use_exact = true ∧ exact_matches.length = 1 then
    exact_matches.head?
  else
    let items := pool.filter (fun c => nameOf c != "")
    match (processExtract scorer guessed (pyDictKeys (items.map nameOf)) limit).filter
        (fun m => 60 ≤ m.2) with
    | [] => none
    | (best_name, best_score) :: restv =>
      let cands := ((best_name, best_score) :: restv).filterMap
        (fun m => pyDictGet nameOf items m.1)
      let llm_fallback :=
        match llm with
        | none => none
        | some client =>
          find_winner_from_llm_response nameOf
            (client.respond guessed (cands.map nameOf)) cands
      match restv with
      | [] =>
        if fuzzy_threshold ≤ best_score then pyDictGet nameOf items best_name
        else llm_fallback
      | (_, second_score) :: _ =>
        if fuzzy_threshold ≤ best_score ∧ 10 < best_score - second_score then
          pyDictGet nameOf items best_name
        else llm_fallback

/-- The winner of the customer LLM block, disregarding the method tag,
is the plain matched response. -/
theorem customerLLMBlock_fst (llm : Option LLMClient) (guessed_name : String)
    (cands : List Customer) :
    (customerLLMBlock llm guessed_name cands).1
      = match llm with
        | none => none
        | some client =>
          find_winner_from_llm_response (fun c => c.business_name)
            (client.respond guessed_name (cands.map (fun c => c.business_name))) cands := by
  cases llm with
  | none => rfl
  | some client =>
    simp only [customerLLMBlock]
    cases h : find_winner_from_llm_response (fun c => c.business_name)
        (client.respond guessed_name (cands.map (fun c => c.business_name))) cands <;> simp [h]

/-- C2 (amended): customer and contact resolution are instances of one
parameterized cascade over the respective name keys, but they are not
identical: the customer side runs the exact pass and truncates the fuzzy
list to the top 5, while the contact side has no exact pass and truncates
to the top 3, scoped to the contacts of the already resolved customer. -/
theorem claim2_cascade_amended (scorer : String → String → Int) (llm : Option LLMClient)
    (fuzzy_threshold : Int) (guessed : String) :
    (∀ pool : List Customer,
        (resolveCustomer scorer llm fuzzy_threshold guessed pool).1
          = genericCascade (fun c => c.business_name) true 5 scorer llm fuzzy_threshold
              guessed pool)
    ∧ (∀ contacts : List Contact,
        resolveContact scorer llm fuzzy_threshold guessed contacts
          = genericCascade (fun c => c.name) false 3 scorer llm fuzzy_threshold
              guessed contacts) := by
  constructor
  · intro pool
    unfold resolveCustomer genericCascade
    by_cases hex :
        (pool.filter (fun c => pyLower c.business_name == pyLower guessed)).length = 1
    · simp [hex]
    · simp only [hex, true_and, if_neg, and_false, if_false]
      unfold customerFuzzyBlock
      have hv : (processExtract scorer guessed
            (pyDictKeys ((pool.filter (fun c => c.business_name != "")).map
              (fun c => c.business_name))) 5).filter (fun m => 60 ≤ m.2)
          = customerViable scorer guessed pool := rfl
      rw [hv]
      cases hcv : customerViable scorer guessed pool with
      | nil => rfl
      | cons b restv =>
        obtain ⟨best_name, best_score⟩ := b
        have hcands : ((best_name, best_score) :: restv).filterMap
              (fun m => pyDictGet (fun c => c.business_name)
                (pool.filter (fun c => c.business_name != "")) m.1)
            = customerCandidates scorer guessed pool := by
          unfold customerCandidates customerItems
          rw [hcv]
        cases restv with
        | nil =>
          by_cases hth : fuzzy_threshold ≤ best_score
          · simp [hth, customerItems]
          · simp only [hth, if_false]
            rw [customerLLMBlock_fst]
            simp only [hcands]
        | cons b2 rv2 =>
          obtain ⟨second_name, second_score⟩ := b2
          by_cases hth : fuzzy_threshold ≤ best_score ∧ 10 < best_score - second_score
          · simp [hth, customerItems]
          · simp only [hth, if_false]
            rw [customerLLMBlock_fst]
            simp only [hcands]
  · intro contacts
    unfold resolveContact genericCascade
    simp only [Bool.false_eq_true, false_and, if_false]
    have hv : (processExtract scorer guessed
          (pyDictKeys ((contacts.filter (fun c => c.name != "")).map (fun c => c.name))) 3).filter
          (fun m => 60 ≤ m.2)
        = contactViable scorer guessed contacts := rfl
    rw [hv]
    cases hcv : contactViable scorer guessed contacts with
    | nil => rfl
    | cons b restv =>
      obtain ⟨best_name, best_score⟩ := b
      have hcands : ((best_name, best_score) :: restv).filterMap
            (fun m => pyDictGet (fun c => c.name)
              (contacts.filter (fun c => c.name != "")) m.1)
          = contactCandidates scorer guessed contacts := by
        unfold contactCandidates contactItems
        rw [hcv]
      cases restv with
      | nil =>
        by_cases hth : fuzzy_threshold ≤ best_score
        · simp [hth, contactItems]
        · simp only [hth, if_false]
          simp only [hcands]
          rfl
      | cons b2 rv2 =>
        obtain ⟨second_name, second_score⟩ := b2
        by_cases hth : fuzzy_threshold ≤ best_score ∧ 10 < best_score - second_score
        · simp [hth, contactItems]
        · simp only [hth, if_false]
          simp only [hcands]
          rfl

/-- A concrete plausible scorer for the counterexamples: both the name
Acme and the name Acme Inc score 100 against the query Acme, as the
token-set metric does for token subsets; everything else scores 0. -/
def cexScorer : String → String → Int := fun _ choice =>
  if choice == "Acme" then 100 else if choice == "Acme Inc" then 100 else 0

/-- C2 counterexample: on the same pair of candidate names, with no LLM
client available, the customer-side resolver wins by the exact pass while
the contact-side resolver, which has no exact pass, reaches the ambiguity
fallback and returns no winner — the two procedures are not identical. -/
theorem claim2_counterexample :
    (resolveCustomer cexScorer none 85 "Acme"
        [⟨some 1, "Acme", []⟩, ⟨some 2, "Acme Inc", []⟩]).1
      = some ⟨some 1, "Acme", []⟩
    ∧ resolveContact cexScorer none 85 "Acme"
        [⟨some 11, "Acme"⟩, ⟨some 12, "Acme Inc"⟩]
      = none := by
  refine ⟨?_, ?_⟩
  · decide
  · decide

/-- The customer LLM block never reports the exact method. -/
theorem customerLLMBlock_ne_exactM (llm : Option LLMClient) (guessed_name : String)
    (cands : List Customer) :
    (customerLLMBlock llm guessed_name cands).2 ≠ LinkMethod.exactM := by
  cases llm with
  | none => simp [customerLLMBlock]
  | some client =>
    simp only [customerLLMBlock]
    cases find_winner_from_llm_response (fun c => c.business_name)
        (client.respond guessed_name (cands.map (fun c => c.business_name))) cands <;> simp

/-- The fuzzy pass with LLM fallback never reports the exact method. -/
theorem customerFuzzyBlock_ne_exactM (scorer : String → String → Int) (llm : Option LLMClient)
    (fuzzy_threshold : Int) (guessed_name : String) (customer_cache : List Customer) :
    (customerFuzzyBlock scorer llm fuzzy_threshold guessed_name customer_cache).2
      ≠ LinkMethod.exactM := by
  unfold customerFuzzyBlock
  cases customerViable scorer guessed_name customer_cache with
  | nil => simp
  | cons b restv =>
    obtain ⟨best_name, best_score⟩ := b
    cases restv with
    | nil =>
      by_cases hth : fuzzy_threshold ≤ best_score
      · simp [hth]
      · simp only [hth, if_false]
        exact customerLLMBlock_ne_exactM llm guessed_name _
    | cons b2 rv2 =>
      obtain ⟨second_name, second_score⟩ := b2
      by_cases hth : fuzzy_threshold ≤ best_score ∧ 10 < best_score - second_score
      · simp [hth]
      · simp only [hth, if_false]
        exact customerLLMBlock_ne_exactM llm guessed_name _

/-- C4 (confirmed): when two or more roster customers match the guessed
name case-insensitively, the exact pass does not auto-resolve: the result
is exactly that of the fuzzy and LLM disambiguation stage over the viable
candidates, and the method is never the exact one. -/
theorem claim4_ambiguous_exact (scorer : String → String → Int) (llm : Option LLMClient)
    (fuzzy_threshold : Int) (guessed_name : String) (customer_cache : List Customer)
    (h2 : 2 ≤ (customer_cache.filter
        (fun c => pyLower c.business_name == pyLower guessed_name)).length) :
    resolveCustomer scorer llm fuzzy_threshold guessed_name customer_cache
      = customerFuzzyBlock scorer llm fuzzy_threshold guessed_name customer_cache
    ∧ (resolveCustomer scorer llm fuzzy_threshold guessed_name customer_cache).2
      ≠ LinkMethod.exactM := by
  have hne : (customer_cache.filter
      (fun c => pyLower c.business_name == pyLower guessed_name)).length ≠ 1 := by omega
  have hres : resolveCustomer scorer llm fuzzy_threshold guessed_name customer_cache
      = customerFuzzyBlock scorer llm fuzzy_threshold guessed_name customer_cache := by
    unfold resolveCustomer
    rw [if_neg hne]
  exact ⟨hres, by
    rw [hres]
    exact customerFuzzyBlock_ne_exactM scorer llm fuzzy_threshold guessed_name customer_cache⟩

/-- C4 witness: two customers both case-insensitively equal to the
guessed name acme; the exact pass is skipped and the fuzzy stage
decides. -/
theorem claim4_ambiguous_exact_witness :
    resolveCustomer cexScorer none 85 "acme"
        [⟨some 1, "Acme", []⟩, ⟨some 2, "ACME", []⟩]
      = customerFuzzyBlock cexScorer none 85 "acme"
        [⟨some 1, "Acme", []⟩, ⟨some 2, "ACME", []⟩]
    ∧ (resolveCustomer cexScorer none 85 "acme"
        [⟨some 1, "Acme", []⟩, ⟨some 2, "ACME", []⟩]).2 ≠ LinkMethod.exactM :=
  claim4_ambiguous_exact cexScorer none 85 "acme"
    [⟨some 1, "Acme", []⟩, ⟨some 2, "ACME", []⟩] (by decide)

/-- C6 (confirmed): whenever the exact pass does not decide, the fuzzy
pass behaves as claimed on the viable candidates — the top 5 scores with
the viability floor 60: empty viable list means no winner without any LLM
involvement; a single viable candidate wins with the fuzzy method exactly
when it reaches the accept threshold; with two or more viable candidates
the best wins exactly when it reaches the threshold and is more than 10
ahead of the runner up; every other viable case falls through to the LLM
block.  The scorer is abstract, standing for the token-set metric. -/
theorem claim6_fuzzy_decision (scorer : String → String → Int) (llm : Option LLMClient)
    (fuzzy_threshold : Int) (guessed_name : String) (customer_cache : List Customer)
    (hexact : (customer_cache.filter
        (fun c => pyLower c.business_name == pyLower guessed_name)).length ≠ 1) :
    (customerViable scorer guessed_name customer_cache = [] →
        resolveCustomer scorer llm fuzzy_threshold guessed_name customer_cache
          = (none, LinkMethod.noneM))
    ∧ (∀ n s, customerViable scorer guessed_name customer_cache = [(n, s)] →
        (fuzzy_threshold ≤ s →
          resolveCustomer scorer llm fuzzy_threshold guessed_name customer_cache
            = (pyDictGet (fun c => c.business_name) (customerItems customer_cache) n,
                LinkMethod.fuzzyM))
        ∧ (s < fuzzy_threshold →
          resolveCustomer scorer llm fuzzy_threshold guessed_name customer_cache
            = customerLLMBlock llm guessed_name
                (customerCandidates scorer guessed_name customer_cache)))
    ∧ (∀ n s n₂ s₂ rv,
        customerViable scorer guessed_name customer_cache = (n, s) :: (n₂, s₂) :: rv →
        (fuzzy_threshold ≤ s ∧ 10 < s - s₂ →
          resolveCustomer scorer llm fuzzy_threshold guessed_name customer_cache
            = (pyDictGet (fun c => c.business_name) (customerItems customer_cache) n,
                LinkMethod.fuzzyM))
        ∧ (¬(fuzzy_threshold ≤ s ∧ 10 < s - s₂) →
          resolveCustomer scorer llm fuzzy_threshold guessed_name customer_cache
            = customerLLMBlock llm guessed_name
                (customerCandidates scorer guessed_name customer_cache))) := by
  have hres : resolveCustomer scorer llm fuzzy_threshold guessed_name customer_cache
      = customerFuzzyBlock scorer llm fuzzy_threshold guessed_name customer_cache := by
    unfold resolveCustomer
    rw [if_neg hexact]
  refine ⟨?_, ?_, ?_⟩
  · intro hv
    rw [hres]
    unfold customerFuzzyBlock
    rw [hv]
  · intro n s hv
    constructor
    · intro hth
      rw [hres]
      unfold customerFuzzyBlock
      rw [hv]
      simp [hth]
    · intro hth
      rw [hres]
      unfold customerFuzzyBlock
      rw [hv]
      simp only []
      rw [if_neg (by omega)]
  · intro n s n₂ s₂ rv hv
    constructor
    · intro hth
      rw [hres]
      unfold customerFuzzyBlock
      rw [hv]
      simp [hth]
    · intro hth
      rw [hres]
      unfold customerFuzzyBlock
      rw [hv]
      simp only []
      rw [if_neg hth]

/-- C6 witness: a guessed name scoring 0 against the only roster entry
has no viable candidate and resolves to no winner, through the claim
theorem. -/
theorem claim6_fuzzy_decision_witness :
    resolveCustomer cexScorer none 85 "Zeta" [⟨some 1, "Beta", []⟩]
      = (none, LinkMethod.noneM) :=
  (claim6_fuzzy_decision cexScorer none 85 "Zeta" [⟨some 1, "Beta", []⟩]
    (by decide)).1 (by decide)

/-! Linking orchestrator: the per-file loop of link_customers_to_sessions
(linker lines 73-231), over the Session fields it reads and writes. -/

/-- The Session meta fields used by the linking loop. -/
structure SessionMetaL where
  session_id : String
  processing_status : String
  source_system : String
deriving DecidableEq, Repr

/-- The Session context fields used by the linking loop. -/
structure SessionContextL where
  customer_id : Option Int
  customer_name : Option String
  contact_id : Option Int
  contact_name : Option String
deriving DecidableEq, Repr

/-- The slice of a Session the linking loop reads and writes. -/
structure SessionL where
  meta : SessionMetaL
  context : SessionContextL
deriving DecidableEq, Repr

/-- Python truthiness of an optional string: None and the empty string
are falsy. -/
def strTruthy : Option String → Bool
  | none => false
  | some s => s != ""

/-- Trace record of one customer resolution inside the loop, for
observing the per-run memoization. -/
structure CustTraceEntry where
  key : String
  fromCache : Bool
  winner : Option Customer
deriving DecidableEq, Repr

/-- Trace record of one contact resolution inside the loop. -/
structure ContTraceEntry where
  key : String × String
  fromCache : Bool
  winner : Option Contact
deriving DecidableEq, Repr

/-- Python dict lookup over an association list; at most one entry per
key is ever stored, inserted on first miss. -/
def cacheLookup {κ β : Type} [BEq κ] (cache : List (κ × β)) (k : κ) : Option β :=
  (cache.find? (fun p => p.1 == k)).map (fun p => p.2)

/-- Embedding of the customer linking step with caching (lines 112-161):
a cache hit returns the cached outcome, also a negative one, without
running the cascade; a miss runs the cascade once and stores the outcome,
also a negative one.  The boolean records whether the cascade ran. -/
def customerLinkStep (scorer : String → String → Int) (llm : Option LLMClient)
    (fuzzy_threshold : Int) (roster : List Customer)
    (cache : List (String × Option Customer)) (guessed_name : String) :
    Option Customer × List (String × Option Customer) × Bool :=
  match cacheLookup cache guessed_name with
  | some cached => (cached, cache, false)
  | none =>
    let w := (resolveCustomer scorer llm fuzzy_threshold guessed_name roster).1
    (w, cache ++ [(guessed_name, w)], true)

/-- Embedding of the contact linking step with caching (lines 177-212),
keyed by the authoritative customer name and the guessed contact name. -/
def contactLinkStep (scorer : String → String → Int) (llm : Option LLMClient)
    (fuzzy_threshold : Int) (cache : List ((String × String) × Option Contact))
    (key : String × String) (known_contacts : List Contact) :
    Option Contact × List ((String × String) × Option Contact) × Bool :=
  match cacheLookup cache key with
  | some cached => (cached, cache, false)
  | none =>
    let w := resolveContact scorer llm fuzzy_threshold key.2 known_contacts
    (w, cache ++ [(key, w)], true)

/-- The mutable state of one orchestrator run: the four counters of line
65, the two memoization caches of lines 70-71, the sequence of persisted
Sessions (save calls in order), and the resolution traces. -/
structure LinkerState where
  processed_files : Nat
  linked_files : Nat
  error_files : Nat
  skipped_files : Nat
  customer_link_cache : List (String × Option Customer)
  contact_link_cache : List ((String × String) × Option Contact)
  saved : List SessionL
  custTrace : List CustTraceEntry
  contTrace : List ContTraceEntry
deriving Repr

/-- The source denylist of line 94. -/
def unlinkable_sources : List String := ["SillyTavern"]

/-- Embedding of one iteration of the scan loop (lines 74-231).  The
input is the result of loading one json file: None when the load or parse
failed.  Malformed files only bump the error counter; skipped Sessions
are not saved; all other paths save exactly once at the end of the
iteration. -/
def processFile (scorer : String → String → Int) (llm : Option LLMClient)
    (fuzzy_threshold : Int) (roster : List Customer)
    (st : LinkerState) (load_result : Option SessionL) : LinkerState :=
  let st := { st with processed_files := st.processed_files + 1 }
  match load_result with
  | none => { st with error_files := st.error_files + 1 }
  | some session =>
    if session.meta.processing_status != "Needs Linking" then
      { st with skipped_files := st.skipped_files + 1 }
    else if unlinkable_sources.contains session.meta.source_system then
      { st with skipped_files := st.skipped_files + 1 }
    else if !strTruthy session.context.customer_name then
      let session' := { session with
        meta := { session.meta with processing_status := "error" } }
      { st with
        error_files := st.error_files + 1
        saved := st.saved ++ [session'] }
    else
      let guessed_name := session.context.customer_name.getD ""
      let cres := customerLinkStep scorer llm fuzzy_threshold roster
        st.customer_link_cache guessed_name
      let winner := cres.1
      let st := { st with
        customer_link_cache := cres.2.1
        custTrace := st.custTrace ++ [(⟨guessed_name, !cres.2.2, winner⟩ : CustTraceEntry)] }
      match winner with
      | some w =>
        let session' := { session with
          meta := { session.meta with processing_status := "Linked" }
          context := { session.context with
            customer_id := w.id
            customer_name := some w.business_name } }
        let st := { st with linked_files := st.linked_files + 1 }
        let guessed_contact := session.context.contact_name.getD ""
        let authoritative_customer_name := w.business_name
        if strTruthy session.context.contact_name && !w.contacts.isEmpty
            && (authoritative_customer_name != "") then
          let contact_cache_key := (authoritative_customer_name, guessed_contact)
          let kres := contactLinkStep scorer llm fuzzy_threshold
            st.contact_link_cache contact_cache_key w.contacts
          let contact_winner := kres.1
          let st := { st with
            contact_link_cache := kres.2.1
            contTrace := st.contTrace ++ [(⟨contact_cache_key, !kres.2.2, contact_winner⟩ : ContTraceEntry)] }
          match contact_winner with
          | some cw =>
            let session'' := { session' with
              context := { session'.context with
                contact_id := cw.id
                contact_name := some cw.name } }
            { st with saved := st.saved ++ [session''] }
          | none => { st with saved := st.saved ++ [session'] }
        else
          { st with saved := st.saved ++ [session'] }
      | none =>
        let session' := { session with
          meta := { session.meta with processing_status := "error" } }
        { st with
          error_files := st.error_files + 1
          saved := st.saved ++ [session'] }

/-- The state at the start of a run: zero counters, empty caches. -/
def initialLinkerState : LinkerState := ⟨0, 0, 0, 0, [], [], [], [], []⟩

/-- Embedding of one orchestrator run over the load results of the
scanned json files, in scan order. -/
def linkRun (scorer : String → String → Int) (llm : Option LLMClient)
    (fuzzy_threshold : Int) (roster : List Customer)
    (load_results : List (Option SessionL)) : LinkerState :=
  load_results.foldl (processFile scorer llm fuzzy_threshold roster) initialLinkerState

/-- A well-formed Session in a status the loop skips. -/
def cexSessionSkip : SessionL :=
  ⟨⟨"sid1", "Reviewed", "SyncroTicket"⟩, ⟨none, some "Acme", none, none⟩⟩

/-- An eligible Session whose guessed name has no roster match. -/
def cexSessionEligible : SessionL :=
  ⟨⟨"sid2", "Needs Linking", "ScreenConnect"⟩, ⟨none, some "Zeta", none, none⟩⟩

/-- C3 counterexample: a json file that fails to load or parse only bumps
the error counter — nothing is marked Error and nothing is persisted for
it; and an encountered Session in a non pending status is skipped without
being persisted.  This refutes that every encountered Session reaches a
terminal status and is persisted exactly once, and that a malformed
Session is marked Error and persisted. -/
theorem claim3_counterexample :
    (processFile cexScorer none 85 [] initialLinkerState none).saved = []
    ∧ (processFile cexScorer none 85 [] initialLinkerState none).error_files = 1
    ∧ (processFile cexScorer none 85 [] initialLinkerState (some cexSessionSkip)).saved = []
    ∧ (processFile cexScorer none 85 [] initialLinkerState
        (some cexSessionSkip)).skipped_files = 1 := by
  refine ⟨?_, ?_, ?_, ?_⟩ <;> decide

/-- C3 (amended): failed loads bump the error counter and persist
nothing; Sessions skipped for status or source are not persisted; every
loaded Session that passes both skip guards is persisted exactly once by
its iteration, in a terminal status Linked or error, and each iteration
only ever appends to the persisted sequence, so processing always
continues with the next file. -/
theorem claim3_terminal_persist_amended (scorer : String → String → Int)
    (llm : Option LLMClient) (fuzzy_threshold : Int) (roster : List Customer) :
    (∀ st, (processFile scorer llm fuzzy_threshold roster st none).saved = st.saved
        ∧ (processFile scorer llm fuzzy_threshold roster st none).error_files
            = st.error_files + 1)
    ∧ (∀ st session, session.meta.processing_status ≠ "Needs Linking" →
        (processFile scorer llm fuzzy_threshold roster st (some session)).saved = st.saved
        ∧ (processFile scorer llm fuzzy_threshold roster st (some session)).skipped_files
            = st.skipped_files + 1)
    ∧ (∀ st session, session.meta.processing_status = "Needs Linking" →
        unlinkable_sources.contains session.meta.source_system = true →
        (processFile scorer llm fuzzy_threshold roster st (some session)).saved = st.saved)
    ∧ (∀ st session, session.meta.processing_status = "Needs Linking" →
        unlinkable_sources.contains session.meta.source_system = false →
        ∃ session',
          (processFile scorer llm fuzzy_threshold roster st (some session)).saved
              = st.saved ++ [session']
          ∧ (session'.meta.processing_status = "Linked"
              ∨ session'.meta.processing_status = "error")) := by
  refine ⟨?_, ?_, ?_, ?_⟩
  · intro st
    constructor <;> rfl
  · intro st session hstatus
    have hb : (session.meta.processing_status != "Needs Linking") = true := by
      simpa using hstatus
    constructor <;> simp [processFile, hb]
  · intro st session hstatus hsrc
    have hb : (session.meta.processing_status != "Needs Linking") = false := by
      simpa using hstatus
    simp only [processFile, hb, Bool.false_eq_true, if_false, hsrc]
    rfl
  · intro st session hstatus hsrc
    have hb : (session.meta.processing_status != "Needs Linking") = false := by
      simpa using hstatus
    simp only [processFile, hb, Bool.false_eq_true, if_false, hsrc]
    split
    · exact ⟨_, rfl, Or.inr rfl⟩
    · split
      · split
        · split
          · exact ⟨_, rfl, Or.inl rfl⟩
          · exact ⟨_, rfl, Or.inl rfl⟩
        · exact ⟨_, rfl, Or.inl rfl⟩
      · exact ⟨_, rfl, Or.inr rfl⟩

/-- C3 witness: a concrete eligible Session with an unmatchable guessed
name is persisted exactly once by its iteration, in a terminal status. -/
theorem claim3_terminal_persist_witness :
    ∃ session',
      (processFile cexScorer none 85 [] initialLinkerState
          (some cexSessionEligible)).saved
        = initialLinkerState.saved ++ [session']
      ∧ (session'.meta.processing_status = "Linked"
          ∨ session'.meta.processing_status = "error") :=
  (claim3_terminal_persist_amended cexScorer none 85 []).2.2.2
    initialLinkerState cexSessionEligible rfl (by decide)

/-- A lookup that succeeds still succeeds with the same value after a
fresh entry is appended. -/
theorem cacheLookup_append_some {κ β : Type} [BEq κ] (cache : List (κ × β)) (k g : κ)
    (w : β) {v : β} (h : cacheLookup cache k = some v) :
    cacheLookup (cache ++ [(g, w)]) k = some v := by
  unfold cacheLookup at h ⊢
  rw [List.find?_append]
  cases hf : cache.find? (fun p => p.1 == k) with
  | none => rw [hf] at h; simp at h
  | some p => rw [hf] at h; simpa [Option.or] using h

/-- After appending an entry under a previously absent key, the lookup of
that key returns the appended value. -/
theorem cacheLookup_append_self {κ β : Type} [BEq κ] [LawfulBEq κ] (cache : List (κ × β))
    (g : κ) (w : β) (h : cacheLookup cache g = none) :
    cacheLookup (cache ++ [(g, w)]) g = some w := by
  unfold cacheLookup at h ⊢
  rw [List.find?_append]
  cases hf : cache.find? (fun p => p.1 == g) with
  | none => simp [Option.or, List.find?]
  | some p => rw [hf] at h; simp at h

/-- Existing cache entries survive the customer linking step. -/
theorem customerLinkStep_mono (scorer : String → String → Int) (llm : Option LLMClient)
    (fuzzy_threshold : Int) (roster : List Customer)
    (cache : List (String × Option Customer)) (g k : String) {v : Option Customer}
    (h : cacheLookup cache k = some v) :
    cacheLookup (customerLinkStep scorer llm fuzzy_threshold roster cache g).2.1 k
      = some v := by
  unfold customerLinkStep
  cases hc : cacheLookup cache g with
  | some cached => simpa using h
  | none => simpa using cacheLookup_append_some cache k g _ h

/-- After the customer linking step the guessed name maps to the winner
the step reported. -/
theorem customerLinkStep_self (scorer : String → String → Int) (llm : Option LLMClient)
    (fuzzy_threshold : Int) (roster : List Customer)
    (cache : List (String × Option Customer)) (g : String) :
    cacheLookup (customerLinkStep scorer llm fuzzy_threshold roster cache g).2.1 g
      = some (customerLinkStep scorer llm fuzzy_threshold roster cache g).1 := by
  unfold customerLinkStep
  cases hc : cacheLookup cache g with
  | some cached => simpa using hc
  | none => simpa using cacheLookup_append_self cache g _ hc

/-- A cache hit short-circuits the customer linking step: the cached
outcome is returned unchanged, the cache is untouched and the cascade is
not executed. -/
theorem customerLinkStep_hit (scorer : String → String → Int) (llm : Option LLMClient)
    (fuzzy_threshold : Int) (roster : List Customer)
    (cache : List (String × Option Customer)) (g : String) {v : Option Customer}
    (h : cacheLookup cache g = some v) :
    customerLinkStep scorer llm fuzzy_threshold roster cache g = (v, cache, false) := by
  unfold customerLinkStep
  rw [h]

/-- Existing cache entries survive the contact linking step. -/
theorem contactLinkStep_mono (scorer : String → String → Int) (llm : Option LLMClient)
    (fuzzy_threshold : Int) (cache : List ((String × String) × Option Contact))
    (key k : String × String) (contacts : List Contact) {v : Option Contact}
    (h : cacheLookup cache k = some v) :
    cacheLookup (contactLinkStep scorer llm fuzzy_threshold cache key contacts).2.1 k
      = some v := by
  unfold contactLinkStep
  cases hc : cacheLookup cache key with
  | some cached => simpa using h
  | none => simpa using cacheLookup_append_some cache k key _ h

/-- After the contact linking step the key maps to the winner the step
reported. -/
theorem contactLinkStep_self (scorer : String → String → Int) (llm : Option LLMClient)
    (fuzzy_threshold : Int) (cache : List ((String × String) × Option Contact))
    (key : String × String) (contacts : List Contact) :
    cacheLookup (contactLinkStep scorer llm fuzzy_threshold cache key contacts).2.1 key
      = some (contactLinkStep scorer llm fuzzy_threshold cache key contacts).1 := by
  unfold contactLinkStep
  cases hc : cacheLookup cache key with
  | some cached => simpa using hc
  | none => simpa using cacheLookup_append_self cache key _ hc

/-- A cache hit short-circuits the contact linking step. -/
theorem contactLinkStep_hit (scorer : String → String → Int) (llm : Option LLMClient)
    (fuzzy_threshold : Int) (cache : List ((String × String) × Option Contact))
    (key : String × String) (contacts : List Contact) {v : Option Contact}
    (h : cacheLookup cache key = some v) :
    contactLinkStep scorer llm fuzzy_threshold cache key contacts = (v, cache, false) := by
  unfold contactLinkStep
  rw [h]

/-- Memoization relation on the customer trace: a later resolution of the
same key is served from the cache with the earlier outcome. -/
def custMemoR (e1 e2 : CustTraceEntry) : Prop :=
  e1.key = e2.key → e2.fromCache = true ∧ e2.winner = e1.winner

/-- Memoization relation on the contact trace. -/
def contMemoR (e1 e2 : ContTraceEntry) : Prop :=
  e1.key = e2.key → e2.fromCache = true ∧ e2.winner = e1.winner

/-- Invariant of a run: every trace entry is recorded in its cache, and
both traces satisfy the memoization relation pairwise. -/
def RunInv (st : LinkerState) : Prop :=
  (∀ e ∈ st.custTrace, cacheLookup st.customer_link_cache e.key = some e.winner)
  ∧ (∀ e ∈ st.contTrace, cacheLookup st.contact_link_cache e.key = some e.winner)
  ∧ List.Pairwise custMemoR st.custTrace
  ∧ List.Pairwise contMemoR st.contTrace

/-- Extending the customer trace and cache through one linking step
preserves the recorded-in-cache property and the memoization relation. -/
theorem memo_extend_cust (scorer : String → String → Int) (llm : Option LLMClient)
    (fuzzy_threshold : Int) (roster : List Customer)
    (cache : List (String × Option Customer)) (trace : List CustTraceEntry) (g : String)
    (h1 : ∀ e ∈ trace, cacheLookup cache e.key = some e.winner)
    (h3 : List.Pairwise custMemoR trace) :
    (∀ e ∈ trace ++ [(⟨g, !(customerLinkStep scorer llm fuzzy_threshold roster cache g).2.2,
          (customerLinkStep scorer llm fuzzy_threshold roster cache g).1⟩ : CustTraceEntry)],
        cacheLookup (customerLinkStep scorer llm fuzzy_threshold roster cache g).2.1 e.key
          = some e.winner)
    ∧ List.Pairwise custMemoR (trace ++
        [(⟨g, !(customerLinkStep scorer llm fuzzy_threshold roster cache g).2.2,
          (customerLinkStep scorer llm fuzzy_threshold roster cache g).1⟩ : CustTraceEntry)]) := by
  constructor
  · intro e he
    rcases List.mem_append.mp he with he | he
    · exact customerLinkStep_mono scorer llm fuzzy_threshold roster cache g e.key (h1 e he)
    · rcases List.mem_singleton.mp he with rfl
      exact customerLinkStep_self scorer llm fuzzy_threshold roster cache g
  · refine List.pairwise_append.mpr ⟨h3, List.pairwise_singleton _ _, ?_⟩
    intro e1 he1 e2 he2
    rcases List.mem_singleton.mp he2 with rfl
    intro hkey
    have hlook : cacheLookup cache g = some e1.winner := by
      have := h1 e1 he1
      rwa [hkey] at this
    have hhit := customerLinkStep_hit scorer llm fuzzy_threshold roster cache g hlook
    rw [hhit]
    exact ⟨rfl, rfl⟩

/-- Extending the contact trace and cache through one linking step
preserves the recorded-in-cache property and the memoization relation. -/
theorem memo_extend_cont (scorer : String → String → Int) (llm : Option LLMClient)
    (fuzzy_threshold : Int) (cache : List ((String × String) × Option Contact))
    (trace : List ContTraceEntry) (key : String × String) (contacts : List Contact)
    (h2 : ∀ e ∈ trace, cacheLookup cache e.key = some e.winner)
    (h4 : List.Pairwise contMemoR trace) :
    (∀ e ∈ trace ++ [(⟨key, !(contactLinkStep scorer llm fuzzy_threshold cache key contacts).2.2,
          (contactLinkStep scorer llm fuzzy_threshold cache key contacts).1⟩ : ContTraceEntry)],
        cacheLookup (contactLinkStep scorer llm fuzzy_threshold cache key contacts).2.1 e.key
          = some e.winner)
    ∧ List.Pairwise contMemoR (trace ++
        [(⟨key, !(contactLinkStep scorer llm fuzzy_threshold cache key contacts).2.2,
          (contactLinkStep scorer llm fuzzy_threshold cache key contacts).1⟩ : ContTraceEntry)]) := by
  constructor
  · intro e he
    rcases List.mem_append.mp he with he | he
    · exact contactLinkStep_mono scorer llm fuzzy_threshold cache key e.key contacts (h2 e he)
    · rcases List.mem_singleton.mp he with rfl
      exact contactLinkStep_self scorer llm fuzzy_threshold cache key contacts
  · refine List.pairwise_append.mpr ⟨h4, List.pairwise_singleton _ _, ?_⟩
    intro e1 he1 e2 he2
    rcases List.mem_singleton.mp he2 with rfl
    intro hkey
    have hlook : cacheLookup cache key = some e1.winner := by
      have := h2 e1 he1
      rwa [hkey] at this
    have hhit := contactLinkStep_hit scorer llm fuzzy_threshold cache key contacts hlook
    rw [hhit]
    exact ⟨rfl, rfl⟩

/-- One iteration of the scan loop preserves the run invariant. -/
theorem processFile_runInv (scorer : String → String → Int) (llm : Option LLMClient)
    (fuzzy_threshold : Int) (roster : List Customer) (st : LinkerState)
    (x : Option SessionL) (h : RunInv st) :
    RunInv (processFile scorer llm fuzzy_threshold roster st x) := by
  obtain ⟨h1, h2, h3, h4⟩ := h
  cases x with
  | none => exact ⟨h1, h2, h3, h4⟩
  | some session =>
    have hcust := memo_extend_cust scorer llm fuzzy_threshold roster
      st.customer_link_cache st.custTrace (session.context.customer_name.getD "") h1 h3
    simp only [processFile]
    split
    · exact ⟨h1, h2, h3, h4⟩
    · split
      · exact ⟨h1, h2, h3, h4⟩
      · split
        · exact ⟨h1, h2, h3, h4⟩
        · split
          · rename_i w heq
            have hcont := memo_extend_cont scorer llm fuzzy_threshold
              st.contact_link_cache st.contTrace
              (w.business_name, session.context.contact_name.getD "") w.contacts h2 h4
            split
            · split
              · exact ⟨by simpa [heq] using hcust.1, by simpa using hcont.1,
                  by simpa [heq] using hcust.2, by simpa using hcont.2⟩
              · exact ⟨by simpa [heq] using hcust.1, by simpa using hcont.1,
                  by simpa [heq] using hcust.2, by simpa using hcont.2⟩
            · exact ⟨by simpa [heq] using hcust.1, h2,
                by simpa [heq] using hcust.2, h4⟩
          · rename_i heq
            exact ⟨by simpa [heq] using hcust.1, h2,
              by simpa [heq] using hcust.2, h4⟩

/-- The run invariant holds along the whole fold of the scan loop. -/
theorem foldl_runInv (scorer : String → String → Int) (llm : Option LLMClient)
    (fuzzy_threshold : Int) (roster : List Customer) :
    ∀ (loads : List (Option SessionL)) (st : LinkerState), RunInv st →
      RunInv (loads.foldl (processFile scorer llm fuzzy_threshold roster) st) := by
  intro loads
  induction loads with
  | nil => intro st h; exact h
  | cons x xs ih =>
    intro st h
    exact ih _ (processFile_runInv scorer llm fuzzy_threshold roster st x h)

/-- C7 (confirmed): within one run, resolution outcomes, including
negative ones, are memoized by guessed name for customers and by the pair
of authoritative customer name and guessed contact name for contacts: in
the trace of any run, every later resolution of an already seen key is
served from the cache with the earlier outcome unchanged, and a cache hit
returns without executing the cascade — hence without any LLM call — and
without modifying the cache. -/
theorem claim7_memoization (scorer : String → String → Int) (llm : Option LLMClient)
    (fuzzy_threshold : Int) (roster : List Customer)
    (load_results : List (Option SessionL)) :
    List.Pairwise custMemoR
      (linkRun scorer llm fuzzy_threshold roster load_results).custTrace
    ∧ List.Pairwise contMemoR
      (linkRun scorer llm fuzzy_threshold roster load_results).contTrace
    ∧ (∀ cache g v, cacheLookup cache g = some v →
        customerLinkStep scorer llm fuzzy_threshold roster cache g = (v, cache, false))
    ∧ (∀ cache key contacts v, cacheLookup cache key = some v →
        contactLinkStep scorer llm fuzzy_threshold cache key contacts
          = (v, cache, false)) := by
  have hinit : RunInv initialLinkerState := by
    refine ⟨?_, ?_, ?_, ?_⟩
    · intro e he
      simp [initialLinkerState] at he
    · intro e he
      simp [initialLinkerState] at he
    · simp [initialLinkerState]
    · simp [initialLinkerState]
  have hrun := foldl_runInv scorer llm fuzzy_threshold roster load_results
    initialLinkerState hinit
  exact ⟨hrun.2.2.1, hrun.2.2.2,
    fun cache g v hv => customerLinkStep_hit scorer llm fuzzy_threshold roster cache g hv,
    fun cache key contacts v hv =>
      contactLinkStep_hit scorer llm fuzzy_threshold cache key contacts hv⟩

/-- C7 witness: a cache already holding a negative outcome for the
guessed name returns that outcome unchanged without running the
cascade. -/
theorem claim7_memoization_witness :
    customerLinkStep cexScorer none 85 [] [("Acme", none)] "Acme"
      = (none, [("Acme", none)], false) :=
  (claim7_memoization cexScorer none 85 [] []).2.2.1
    [("Acme", none)] "Acme" none (by decide)

end SDC
